import Mathlib

/-!
Shallow embedding of `src/ts/editable/change-timer.ts` (class `ChangeTimer`),
a debounced action scheduler.

The TypeScript class holds four private fields:
  `value      : number | null`  -- the `setTimeout` handle
  `action     : (() => void) | null`
  `startTime  : number | null`  -- `Date.now()` at scheduling
  `delayMs    : number | null`
and five methods `schedule`, `clear`, `fireImmediately`, `getRemaining`,
`isScheduled`, translated below field for field and line for line.

Caller-supplied callbacks are opaque; we model one as a label `id` plus a
flag `throws` saying whether invoking it raises.  Invoking a callback is
observable only as appending `(id, now)` to an execution trace, and, when
`throws` is set, as the exception propagating out of the TS statement
`this.action()` (so the statements after it do not run).

The host event loop (`setTimeout` / `clearTimeout`) is modelled explicitly:
a `World` carries the clock (`Date.now()`), the next fresh timeout handle
(browser handles are positive integers), and the host's table of live
registrations `(handle, dueTime)`.  A registration may be delivered only at
or after its due time, and the host removes a one-shot registration before
invoking its callback.
-/

namespace ChangeTimerModel

/-- An opaque zero-argument callback: a label plus whether invoking it
raises an exception. -/
structure Action where
  id : Nat
  throws : Bool
deriving DecidableEq, Repr

/-- The four private fields of the `ChangeTimer` instance, each
`number | null` or `callback | null` in the source. -/
structure TimerFields where
  value : Option Nat
  action : Option Action
  startTime : Option Nat
  delayMs : Option Nat
deriving DecidableEq, Repr

/-- A timer instance together with its host environment: the wall clock,
the host's fresh-handle counter and registration table, and the trace of
callback executions `(action id, time executed)`. -/
structure World where
  now : Nat
  nextHandle : Nat
  registrations : List (Nat × Nat)
  timer : TimerFields
  executed : List (Nat × Nat)
deriving DecidableEq, Repr

/-- Freshly constructed instance: all four fields null; host clock at 0 and
first timeout handle 1 (browser `setTimeout` ids are positive). -/
def init : World :=
  ⟨0, 1, [], ⟨none, none, none, none⟩, []⟩

/-- JavaScript truthiness of a `number | null` value: `null` and `0` are
falsy.  `clear` and `getRemaining` test `this.value` by truthiness. -/
def truthy : Option Nat → Bool
  | none => false
  | some v => v != 0

/-- `clear()`: if `this.value` is truthy, `clearTimeout(this.value)` (the
host drops the registration), then null out `value`, `startTime`,
`delayMs`.  The source does NOT null `action` here. -/
def clear (w : World) : World :=
  if truthy w.timer.value then
    { w with
      registrations := w.registrations.filter (fun p => p.1 != w.timer.value.getD 0),
      timer := { w.timer with value := none, startTime := none, delayMs := none } }
  else w

/-- `schedule(action, delay)`: `this.clear()`, then set `action`,
`startTime := Date.now()`, `delayMs := delay`, and
`value := setTimeout(this.fireImmediately, delay)` -- the host hands back a
fresh handle and records the callback as due at `now + delay`. -/
def schedule (a : Action) (delay : Nat) (w : World) : World :=
  let w1 := clear w
  { w1 with
    nextHandle := w1.nextHandle + 1
    registrations := (w1.nextHandle, w1.now + delay) :: w1.registrations
    timer := { value := some w1.nextHandle, action := some a,
               startTime := some w1.now, delayMs := some delay } }

/-- `fireImmediately()`: if `this.action` is non-null, invoke it, then
`this.action = null`; finally `this.clear()`.  If the invocation throws,
the exception propagates at once: neither `this.action = null` nor
`this.clear()` runs.  The returned Bool reports whether an exception
escaped. -/
def fireImmediately (w : World) : World × Bool :=
  match w.timer.action with
  | some a =>
      let w1 := { w with executed := w.executed ++ [(a.id, w.now)] }
      if a.throws then
        (w1, true)
      else
        (clear { w1 with timer := { w1.timer with action := none } }, false)
  | none => (clear w, false)

/-- `getRemaining()`: when `this.value` is truthy and `startTime` and
`delayMs` are non-null, return `Math.max(0, delayMs - (Date.now() - startTime))`;
otherwise null. -/
def getRemaining (w : World) : Option Int :=
  match w.timer.value, w.timer.startTime, w.timer.delayMs with
  | some v, some s, some d =>
      if v != 0 then
        some (max 0 ((d : Int) - ((w.now : Int) - (s : Int))))
      else none
  | _, _, _ => none

/-- `isScheduled()`: `this.value !== null`. -/
def isScheduled (w : World) : Bool :=
  w.timer.value.isSome

/-- The operations a client or the host can perform on the instance between
observations: the public methods, the passage of time, and the host
delivering a due timeout callback. -/
inductive Op where
  | schedule (a : Action) (delay : Nat)
  | cancel
  | fire
  | advance (d : Nat)
  | deliver (h : Nat)
deriving DecidableEq, Repr

/-- Apply one operation.  `deliver h` fires the host registration `h` only
if it exists and its due time has arrived; the host removes the one-shot
registration before invoking the (bound) `fireImmediately` callback, so
`clearTimeout` inside the callback finds nothing to cancel.  An exception
escaping the callback is caught by the event loop, so execution goes on. -/
def applyOp : Op → World → World
  | .schedule a d, w => schedule a d w
  | .cancel, w => clear w
  | .fire, w => (fireImmediately w).1
  | .advance d, w => { w with now := w.now + d }
  | .deliver h, w =>
      match w.registrations.find? (fun p => p.1 == h) with
      | some (_, due) =>
          if due ≤ w.now then
            (fireImmediately
              { w with registrations := w.registrations.filter (fun p => p.1 != h) }).1
          else w
      | none => w

/-- Run a sequence of operations. -/
def run : List Op → World → World
  | [], w => w
  | op :: ops, w => run ops (applyOp op w)

/-- A state is reachable when some operation sequence produces it from a
freshly constructed instance. -/
def Reachable (w : World) : Prop :=
  ∃ ops, w = run ops init

/-- The ids of the callbacks executed so far. -/
def executedIds (w : World) : List Nat :=
  w.executed.map Prod.fst

/-- Invariant holding in every reachable state: timeout handles are positive
(so the truthiness tests in `clear`/`getRemaining` agree with null tests),
`value`, `startTime` and `delayMs` are present together, a present handle
has a present action, and the host's registrations all belong to the
current handle and are due at `startTime + delayMs`. -/
structure Inv (w : World) : Prop where
  next_pos : 1 ≤ w.nextHandle
  handle_pos : ∀ h, w.timer.value = some h → 1 ≤ h
  sync_start : w.timer.value.isSome = w.timer.startTime.isSome
  sync_delay : w.timer.value.isSome = w.timer.delayMs.isSome
  regs_handle : ∀ p ∈ w.registrations, w.timer.value = some p.1
  regs_due : ∀ p ∈ w.registrations,
    ∃ s d, w.timer.startTime = some s ∧ w.timer.delayMs = some d ∧ p.2 = s + d
  act_none : w.timer.action = none → w.timer.value = none

theorem clear_executed (w : World) : (clear w).executed = w.executed := by
  unfold clear; split <;> rfl

theorem clear_action (w : World) : (clear w).timer.action = w.timer.action := by
  unfold clear; split <;> rfl

/-- With positive handles and registrations owned by the current handle,
`clear` always lands in the canonical disarmed shape (note the retained
`action`). -/
theorem clear_canonical (w : World)
    (hpos : ∀ h, w.timer.value = some h → 1 ≤ h)
    (hregs : ∀ p ∈ w.registrations, w.timer.value = some p.1)
    (hss : w.timer.value.isSome = w.timer.startTime.isSome)
    (hsd : w.timer.value.isSome = w.timer.delayMs.isSome) :
    clear w = ⟨w.now, w.nextHandle, [], ⟨none, w.timer.action, none, none⟩, w.executed⟩ := by
  obtain ⟨now, nh, regs, ⟨v, act, st, dm⟩, ex⟩ := w
  cases v with
  | none =>
      have hregs0 : regs = [] := by
        cases regs with
        | nil => rfl
        | cons p l => exact absurd (hregs p (List.mem_cons_self p l)) (by simp)
      have hst : st = none := by
        cases st with
        | none => rfl
        | some s => simp at hss
      have hdm : dm = none := by
        cases dm with
        | none => rfl
        | some d => simp at hsd
      simp [clear, truthy, hregs0, hst, hdm]
  | some h =>
      have h1 : 1 ≤ h := hpos h rfl
      have hne : (h != 0) = true := by simp; omega
      have hfil : regs.filter (fun p => p.1 != (some h).getD 0) = [] := by
        rw [List.filter_eq_nil_iff]
        intro p hp
        have := hregs p hp
        simp at this
        simp [this]
      simp [clear, truthy, hne, hfil]
      intro a b hab
      have := hregs (a, b) hab
      simp at this
      omega

theorem inv_canonical (now nh : Nat) (act : Option Action) (ex : List (Nat × Nat))
    (h : 1 ≤ nh) :
    Inv ⟨now, nh, [], ⟨none, act, none, none⟩, ex⟩ := by
  refine ⟨h, ?_, rfl, rfl, ?_, ?_, ?_⟩ <;> simp

theorem inv_clear (w : World) (hw : Inv w) : Inv (clear w) := by
  rw [clear_canonical w hw.handle_pos hw.regs_handle hw.sync_start hw.sync_delay]
  exact inv_canonical _ _ _ _ hw.next_pos

theorem inv_fire (w : World) (hw : Inv w) : Inv (fireImmediately w).1 := by
  obtain ⟨now, nh, regs, ⟨v, act, st, dm⟩, ex⟩ := w
  cases act with
  | none =>
      simpa [fireImmediately] using inv_clear _ hw
  | some a =>
      cases ha : a.throws with
      | true =>
          have hres :
              (fireImmediately ⟨now, nh, regs, ⟨v, some a, st, dm⟩, ex⟩).1
                = ⟨now, nh, regs, ⟨v, some a, st, dm⟩, ex ++ [(a.id, now)]⟩ := by
            simp [fireImmediately, ha]
          rw [hres]
          exact ⟨hw.next_pos, fun h hv => hw.handle_pos h (by simpa using hv),
            by simpa using hw.sync_start, by simpa using hw.sync_delay,
            fun p hp => by simpa using hw.regs_handle p (by simpa using hp),
            fun p hp => by simpa using hw.regs_due p (by simpa using hp),
            by simp⟩
      | false =>
          have hres :
              (fireImmediately ⟨now, nh, regs, ⟨v, some a, st, dm⟩, ex⟩).1
                = clear ⟨now, nh, regs, ⟨v, none, st, dm⟩, ex ++ [(a.id, now)]⟩ := by
            simp [fireImmediately, ha]
          rw [hres,
            clear_canonical ⟨now, nh, regs, ⟨v, none, st, dm⟩, ex ++ [(a.id, now)]⟩
              (fun h hv => hw.handle_pos h (by simpa using hv))
              (fun p hp => by simpa using hw.regs_handle p (by simpa using hp))
              (by simpa using hw.sync_start)
              (by simpa using hw.sync_delay)]
          exact inv_canonical _ _ _ _ hw.next_pos

/-- With the invariant available, `schedule` lands in the canonical armed
shape. -/
theorem schedule_canonical (a : Action) (delay : Nat) (w : World) (hw : Inv w) :
    schedule a delay w =
      ⟨w.now, w.nextHandle + 1, [(w.nextHandle, w.now + delay)],
        ⟨some w.nextHandle, some a, some w.now, some delay⟩, w.executed⟩ := by
  unfold schedule
  rw [clear_canonical w hw.handle_pos hw.regs_handle hw.sync_start hw.sync_delay]

theorem inv_applyOp (op : Op) (w : World) (hw : Inv w) : Inv (applyOp op w) := by
  cases op with
  | schedule a d =>
      show Inv (schedule a d w)
      rw [schedule_canonical a d w hw]
      refine ⟨by show 1 ≤ w.nextHandle + 1; omega, ?_, rfl, rfl, ?_, ?_, by simp⟩
      · intro h hv
        have h2 : w.nextHandle = h := by simpa using hv
        have h3 : 1 ≤ w.nextHandle := hw.next_pos
        omega
      · intro p hp
        simp at hp
        simp [hp]
      · intro p hp
        simp at hp
        exact ⟨w.now, d, rfl, rfl, by simp [hp]⟩
  | cancel =>
      exact inv_clear w hw
  | fire =>
      exact inv_fire w hw
  | advance d =>
      exact ⟨hw.next_pos, hw.handle_pos, hw.sync_start, hw.sync_delay,
        hw.regs_handle, hw.regs_due, hw.act_none⟩
  | deliver h =>
      cases hf : w.registrations.find? (fun p => p.1 == h) with
      | none =>
          have heq : applyOp (Op.deliver h) w = w := by
            simp only [applyOp, hf]
          rw [heq]
          exact hw
      | some pd =>
          obtain ⟨h', due⟩ := pd
          by_cases hdue : due ≤ w.now
          · have heq : applyOp (Op.deliver h) w =
                (fireImmediately
                  { w with registrations := w.registrations.filter (fun p => p.1 != h) }).1 := by
              simp only [applyOp, hf, if_pos hdue]
            rw [heq]
            refine inv_fire _ ⟨hw.next_pos, hw.handle_pos, hw.sync_start, hw.sync_delay,
              ?_, ?_, hw.act_none⟩
            · intro p hp
              exact hw.regs_handle p (List.mem_of_mem_filter hp)
            · intro p hp
              exact hw.regs_due p (List.mem_of_mem_filter hp)
          · have heq : applyOp (Op.deliver h) w = w := by
              simp only [applyOp, hf, if_neg hdue]
            rw [heq]
            exact hw

theorem inv_run (ops : List Op) (w : World) (hw : Inv w) : Inv (run ops w) := by
  induction ops generalizing w with
  | nil => exact hw
  | cons op ops ih => exact ih _ (inv_applyOp op w hw)

theorem inv_init : Inv init := inv_canonical 0 1 none [] (by omega)

theorem inv_reachable (w : World) (hw : Reachable w) : Inv w := by
  obtain ⟨ops, rfl⟩ := hw
  exact inv_run ops init inv_init

theorem executedIds_clear (w : World) : executedIds (clear w) = executedIds w := by
  unfold executedIds
  rw [clear_executed]

/-- Once the host's registration table is empty, any sequence of cancels,
clock advances and delivery attempts invokes no callback and creates no
registration. -/
theorem passive_frozen (ops : List Op) (w : World)
    (hregs : w.registrations = [])
    (hops : ∀ op ∈ ops,
      op = Op.cancel ∨ (∃ d, op = Op.advance d) ∨ (∃ h, op = Op.deliver h)) :
    (run ops w).executed = w.executed ∧ (run ops w).registrations = [] := by
  induction ops generalizing w with
  | nil => exact ⟨rfl, hregs⟩
  | cons op ops ih =>
      have hrest : ∀ op ∈ ops,
          op = Op.cancel ∨ (∃ d, op = Op.advance d) ∨ (∃ h, op = Op.deliver h) :=
        fun o ho => hops o (List.mem_cons_of_mem _ ho)
      have hstep : (applyOp op w).executed = w.executed ∧
          (applyOp op w).registrations = [] := by
        rcases hops op (List.mem_cons_self _ _) with rfl | ⟨d, rfl⟩ | ⟨h, rfl⟩
        · refine ⟨clear_executed w, ?_⟩
          show (clear w).registrations = []
          unfold clear
          split <;> simp [hregs]
        · exact ⟨rfl, hregs⟩
        · have heq : applyOp (Op.deliver h) w = w := by
            simp only [applyOp, hregs, List.find?]
          rw [heq]
          exact ⟨rfl, hregs⟩
      have := ih (applyOp op w) hstep.2 hrest
      exact ⟨by rw [show run (op :: ops) w = run ops (applyOp op w) from rfl,
        this.1, hstep.1], by rw [show run (op :: ops) w = run ops (applyOp op w) from rfl,
        this.2]⟩

/-- A state with no pending action and an empty registration table is inert
under every operation except `schedule`: the trace is frozen and the state
stays inert. -/
theorem inert_frozen (ops : List Op) (w : World)
    (hact : w.timer.action = none) (hregs : w.registrations = [])
    (hops : ∀ op ∈ ops, ∀ a d, op ≠ Op.schedule a d) :
    (run ops w).executed = w.executed ∧
      (run ops w).timer.action = none ∧ (run ops w).registrations = [] := by
  induction ops generalizing w with
  | nil => exact ⟨rfl, hact, hregs⟩
  | cons op ops ih =>
      have hrest : ∀ op ∈ ops, ∀ a d, op ≠ Op.schedule a d :=
        fun o ho => hops o (List.mem_cons_of_mem _ ho)
      have hstep : (applyOp op w).executed = w.executed ∧
          (applyOp op w).timer.action = none ∧ (applyOp op w).registrations = [] := by
        cases op with
        | schedule a d => exact absurd rfl (hops _ (List.mem_cons_self _ _) a d)
        | cancel =>
            refine ⟨clear_executed w, ?_, ?_⟩
            · rw [show applyOp Op.cancel w = clear w from rfl, clear_action]
              exact hact
            · show (clear w).registrations = []
              unfold clear
              split <;> simp [hregs]
        | fire =>
            have heq : applyOp Op.fire w = clear w := by
              show (fireImmediately w).1 = clear w
              unfold fireImmediately
              rw [hact]
            refine ⟨by rw [heq, clear_executed], ?_, ?_⟩
            · rw [heq, clear_action]
              exact hact
            · rw [heq]
              unfold clear
              split <;> simp [hregs]
        | advance d => exact ⟨rfl, hact, hregs⟩
        | deliver h =>
            have heq : applyOp (Op.deliver h) w = w := by
              simp only [applyOp, hregs, List.find?]
            rw [heq]
            exact ⟨rfl, hact, hregs⟩
      have := ih (applyOp op w) hstep.2.1 hstep.2.2 hrest
      refine ⟨?_, this.2.1, this.2.2⟩
      rw [show run (op :: ops) w = run ops (applyOp op w) from rfl, this.1, hstep.1]

/-- When a callback id has not executed and is not the pending action, one
operation that does not schedule it keeps it unexecuted and not pending. -/
theorem applyOp_not_exec (i : Nat) (op : Op) (w : World)
    (hex : i ∉ executedIds w)
    (hact : ∀ a, w.timer.action = some a → a.id ≠ i)
    (hop : ∀ a d, op = Op.schedule a d → a.id ≠ i) :
    i ∉ executedIds (applyOp op w) ∧
      ∀ a, (applyOp op w).timer.action = some a → a.id ≠ i := by
  have hfire : ∀ u : World, u.executed = w.executed → u.timer.action = w.timer.action →
      i ∉ executedIds (fireImmediately u).1 ∧
        ∀ a, (fireImmediately u).1.timer.action = some a → a.id ≠ i := by
    intro u hue hua
    have hid : u.executed.map Prod.fst = executedIds w := by
      unfold executedIds
      rw [hue]
    cases hu : u.timer.action with
    | none =>
        have hres : (fireImmediately u).1 = clear u := by
          unfold fireImmediately
          rw [hu]
        refine ⟨?_, ?_⟩
        · rw [hres, executedIds_clear]
          show i ∉ u.executed.map Prod.fst
          rw [hid]
          exact hex
        · intro a ha
          rw [hres, clear_action, hu] at ha
          cases ha
    | some a =>
        have hai : a.id ≠ i := hact a (by rw [← hua, hu])
        cases hta : a.throws with
        | true =>
            have hres : (fireImmediately u).1 =
                { u with executed := u.executed ++ [(a.id, u.now)] } := by
              unfold fireImmediately
              rw [hu]
              simp [hta]
            refine ⟨?_, ?_⟩
            · rw [hres]
              show i ∉ (u.executed ++ [(a.id, u.now)]).map Prod.fst
              rw [List.map_append]
              intro hc
              rcases List.mem_append.mp hc with hc1 | hc2
              · rw [hid] at hc1
                exact hex hc1
              · simp at hc2
                exact hai hc2.symm
            · intro b hb
              rw [hres] at hb
              have hb2 : some a = some b := by rw [← hu]; exact hb
              cases hb2
              exact hai
        | false =>
            have hres : (fireImmediately u).1 =
                clear { u with
                  executed := u.executed ++ [(a.id, u.now)]
                  timer := { u.timer with action := none } } := by
              unfold fireImmediately
              rw [hu]
              simp [hta]
            refine ⟨?_, ?_⟩
            · rw [hres, executedIds_clear]
              show i ∉ (u.executed ++ [(a.id, u.now)]).map Prod.fst
              rw [List.map_append]
              intro hc
              rcases List.mem_append.mp hc with hc1 | hc2
              · rw [hid] at hc1
                exact hex hc1
              · simp at hc2
                exact hai hc2.symm
            · intro b hb
              rw [hres, clear_action] at hb
              have hb2 : (none : Option Action) = some b := hb
              cases hb2
  cases op with
  | schedule a d =>
      have hai : a.id ≠ i := hop a d rfl
      refine ⟨?_, ?_⟩
      · show i ∉ executedIds (schedule a d w)
        unfold schedule executedIds
        rw [clear_executed]
        exact hex
      · intro b hb
        have hb2 : some a = some b := hb
        cases hb2
        exact hai
  | cancel =>
      refine ⟨?_, ?_⟩
      · show i ∉ executedIds (clear w)
        rw [executedIds_clear]
        exact hex
      · intro b hb
        rw [show (applyOp Op.cancel w) = clear w from rfl, clear_action] at hb
        exact hact b hb
  | fire => exact hfire w rfl rfl
  | advance d => exact ⟨hex, hact⟩
  | deliver h =>
      cases hf : w.registrations.find? (fun p => p.1 == h) with
      | none =>
          have heq : applyOp (Op.deliver h) w = w := by
            simp only [applyOp, hf]
          rw [heq]
          exact ⟨hex, hact⟩
      | some pd =>
          obtain ⟨h', due⟩ := pd
          by_cases hdue : due ≤ w.now
          · have heq : applyOp (Op.deliver h) w =
                (fireImmediately
                  { w with registrations := w.registrations.filter (fun p => p.1 != h) }).1 := by
              simp only [applyOp, hf, if_pos hdue]
            rw [heq]
            exact hfire _ rfl rfl
          · have heq : applyOp (Op.deliver h) w = w := by
              simp only [applyOp, hf, if_neg hdue]
            rw [heq]
            exact ⟨hex, hact⟩

/-- A callback id that has not executed and is not pending never executes
under a sequence of operations none of which schedules it. -/
theorem run_not_exec (i : Nat) (ops : List Op) (w : World)
    (hex : i ∉ executedIds w)
    (hact : ∀ a, w.timer.action = some a → a.id ≠ i)
    (hops : ∀ op ∈ ops, ∀ a d, op = Op.schedule a d → a.id ≠ i) :
    i ∉ executedIds (run ops w) := by
  induction ops generalizing w with
  | nil => exact hex
  | cons op ops ih =>
      have hstep := applyOp_not_exec i op w hex hact
        (hops op (List.mem_cons_self _ _))
      exact ih (applyOp op w) hstep.1 hstep.2
        (fun o ho => hops o (List.mem_cons_of_mem _ ho))

/-- C3 fails on the code: `clear` does not null `action`, so scheduling and
then cancelling leaves `action` present while `value`, `startTime` and
`delayMs` are absent -- a reachable partial state. -/
theorem C3_counterexample :
    (run [Op.schedule ⟨1, false⟩ 5, Op.cancel] init).timer.action = some ⟨1, false⟩ ∧
    (run [Op.schedule ⟨1, false⟩ 5, Op.cancel] init).timer.value = none ∧
    (run [Op.schedule ⟨1, false⟩ 5, Op.cancel] init).timer.startTime = none ∧
    (run [Op.schedule ⟨1, false⟩ 5, Op.cancel] init).timer.delayMs = none := by
  decide

/-- C3 amended: in every reachable state the three timing fields `value`
(handle), `startTime` (armed_at) and `delayMs` (delay) are all present or
all absent, and a present handle implies a present action; the `action`
field itself is exempt -- it can remain present while the other three are
absent. -/
theorem C3_fields_amended (w : World) (hw : Reachable w) :
    w.timer.value.isSome = w.timer.startTime.isSome ∧
    w.timer.value.isSome = w.timer.delayMs.isSome ∧
    (w.timer.action = none → w.timer.value = none) := by
  have hi := inv_reachable w hw
  exact ⟨hi.sync_start, hi.sync_delay, hi.act_none⟩

theorem C3_fields_amended_witness :
    (run [Op.schedule ⟨1, false⟩ 5, Op.cancel] init).timer.value.isSome
        = (run [Op.schedule ⟨1, false⟩ 5, Op.cancel] init).timer.startTime.isSome ∧
    (run [Op.schedule ⟨1, false⟩ 5, Op.cancel] init).timer.value.isSome
        = (run [Op.schedule ⟨1, false⟩ 5, Op.cancel] init).timer.delayMs.isSome ∧
    ((run [Op.schedule ⟨1, false⟩ 5, Op.cancel] init).timer.action = none →
      (run [Op.schedule ⟨1, false⟩ 5, Op.cancel] init).timer.value = none) :=
  C3_fields_amended (run [Op.schedule ⟨1, false⟩ 5, Op.cancel] init)
    ⟨[Op.schedule ⟨1, false⟩ 5, Op.cancel], rfl⟩

/-- C5 fails on the code: after `schedule` then `clear` the instance
reports not-scheduled, yet `fireImmediately` still invokes the retained
action and changes the state, because `clear` does not null `action`. -/
theorem C5_counterexample :
    isScheduled (run [Op.schedule ⟨4, false⟩ 5, Op.cancel] init) = false ∧
    (fireImmediately (run [Op.schedule ⟨4, false⟩ 5, Op.cancel] init)).1.executed
      = [(4, 0)] ∧
    (fireImmediately (run [Op.schedule ⟨4, false⟩ 5, Op.cancel] init)).1
      ≠ run [Op.schedule ⟨4, false⟩ 5, Op.cancel] init := by
  decide

/-- C5 amended: on every reachable instance whose `action` field is absent
(freshly constructed, or after a completed fire -- but not necessarily
after a cancel, which retains the action), `fireImmediately` invokes no
action, raises nothing, and leaves the state unchanged. -/
theorem C5_fire_noop_amended (w : World) (hw : Reachable w)
    (ha : w.timer.action = none) :
    fireImmediately w = (w, false) := by
  have hi := inv_reachable w hw
  have hv : w.timer.value = none := hi.act_none ha
  have hcw : clear w = w := by
    unfold clear
    rw [hv]
    simp [truthy]
  unfold fireImmediately
  rw [ha, hcw]

theorem C5_fire_noop_amended_witness :
    fireImmediately init = (init, false) :=
  C5_fire_noop_amended init ⟨[], rfl⟩ rfl

/-- C6: on every reachable armed instance `getRemaining` returns exactly
`max 0 (delayMs - (now - startTime))`, and on every instance that is not
armed it returns null. -/
theorem C6_remaining_formula (w : World) (hw : Reachable w) :
    (isScheduled w = true →
      ∃ s d, w.timer.startTime = some s ∧ w.timer.delayMs = some d ∧
        getRemaining w = some (max 0 ((d : Int) - ((w.now : Int) - (s : Int))))) ∧
    (isScheduled w = false → getRemaining w = none) := by
  have hi := inv_reachable w hw
  constructor
  · intro ha
    have hv : w.timer.value.isSome = true := ha
    obtain ⟨h, hh⟩ := Option.isSome_iff_exists.mp hv
    have h1 : 1 ≤ h := hi.handle_pos h hh
    obtain ⟨s, hs⟩ := Option.isSome_iff_exists.mp (hi.sync_start ▸ hv)
    obtain ⟨d, hd⟩ := Option.isSome_iff_exists.mp (hi.sync_delay ▸ hv)
    refine ⟨s, d, hs, hd, ?_⟩
    unfold getRemaining
    rw [hh, hs, hd]
    have hne : (h != 0) = true := by
      simp only [bne_iff_ne, ne_eq]
      omega
    simp [hne]
  · intro ha
    have hv : w.timer.value = none :=
      Option.not_isSome_iff_eq_none.mp (by rw [show w.timer.value.isSome = isScheduled w from rfl, ha]; simp)
    unfold getRemaining
    rw [hv]

theorem C6_remaining_formula_witness :
    (isScheduled (run [Op.schedule ⟨0, false⟩ 10, Op.advance 3] init) = true →
      ∃ s d, (run [Op.schedule ⟨0, false⟩ 10, Op.advance 3] init).timer.startTime = some s ∧
        (run [Op.schedule ⟨0, false⟩ 10, Op.advance 3] init).timer.delayMs = some d ∧
        getRemaining (run [Op.schedule ⟨0, false⟩ 10, Op.advance 3] init)
          = some (max 0 ((d : Int) -
              (((run [Op.schedule ⟨0, false⟩ 10, Op.advance 3] init).now : Int) - (s : Int))))) ∧
    (isScheduled (run [Op.schedule ⟨0, false⟩ 10, Op.advance 3] init) = false →
      getRemaining (run [Op.schedule ⟨0, false⟩ 10, Op.advance 3] init) = none) :=
  C6_remaining_formula (run [Op.schedule ⟨0, false⟩ 10, Op.advance 3] init)
    ⟨[Op.schedule ⟨0, false⟩ 10, Op.advance 3], rfl⟩

/-- C8: `clear` is idempotent, and on an instance that is not armed it is a
no-op -- no state change (and, being total, no error). -/
theorem C8_cancel_idem (w : World) (hw : Reachable w) :
    clear (clear w) = clear w ∧ (isScheduled w = false → clear w = w) := by
  have hi := inv_reachable w hw
  have hc := clear_canonical w hi.handle_pos hi.regs_handle hi.sync_start hi.sync_delay
  constructor
  · rw [hc]
    unfold clear
    simp [truthy]
  · intro ha
    have hv : w.timer.value = none :=
      Option.not_isSome_iff_eq_none.mp (by rw [show w.timer.value.isSome = isScheduled w from rfl, ha]; simp)
    unfold clear
    rw [hv]
    simp [truthy]

theorem C8_cancel_idem_witness :
    clear (clear init) = clear init ∧ (isScheduled init = false → clear init = init) :=
  C8_cancel_idem init ⟨[], rfl⟩

/-- C10: in every reachable state the two liveness queries agree --
`isScheduled` returns true exactly when `getRemaining` returns a value. -/
theorem C10_queries_agree (w : World) (hw : Reachable w) :
    isScheduled w = (getRemaining w).isSome := by
  have hi := inv_reachable w hw
  cases hv : w.timer.value with
  | none =>
      have hr : getRemaining w = none := by
        unfold getRemaining
        rw [hv]
      unfold isScheduled
      rw [hv, hr]
      rfl
  | some h =>
      have h1 : 1 ≤ h := hi.handle_pos h hv
      have hvs : w.timer.value.isSome = true := by rw [hv]; rfl
      obtain ⟨s, hs⟩ := Option.isSome_iff_exists.mp (hi.sync_start ▸ hvs)
      obtain ⟨d, hd⟩ := Option.isSome_iff_exists.mp (hi.sync_delay ▸ hvs)
      have hne : (h != 0) = true := by
        simp only [bne_iff_ne, ne_eq]
        omega
      have hr : getRemaining w
          = some (max 0 ((d : Int) - ((w.now : Int) - (s : Int)))) := by
        unfold getRemaining
        rw [hv, hs, hd]
        simp [hne]
      unfold isScheduled
      rw [hv, hr]
      rfl

theorem C10_queries_agree_witness :
    isScheduled init = (getRemaining init).isSome :=
  C10_queries_agree init ⟨[], rfl⟩

/-- C2 fails on the code: `fireImmediately` has no try/finally, so when the
action throws, `this.action = null` and `this.clear()` never run -- the
exception escapes (`.2 = true`), the action ran once, yet the instance is
still armed, not idle. -/
theorem C2_counterexample :
    (fireImmediately (run [Op.schedule ⟨0, true⟩ 5] init)).2 = true ∧
    executedIds (fireImmediately (run [Op.schedule ⟨0, true⟩ 5] init)).1 = [0] ∧
    isScheduled (fireImmediately (run [Op.schedule ⟨0, true⟩ 5] init)).1 = true := by
  decide

/-- C2 amended: invoking `fireImmediately` on a reachable instance with a
pending action runs that action exactly once; when the action returns
normally the instance transitions to idle (all four fields absent); when it
throws, the exception propagates out of `fireImmediately` and the instance
does NOT transition to idle -- all its fields are left as they were. -/
theorem C2_fire_amended (w : World) (a : Action) (hw : Reachable w)
    (ha : w.timer.action = some a) :
    (fireImmediately w).1.executed = w.executed ++ [(a.id, w.now)] ∧
    (a.throws = false →
      (fireImmediately w).2 = false ∧
      (fireImmediately w).1.timer = ⟨none, none, none, none⟩) ∧
    (a.throws = true →
      (fireImmediately w).2 = true ∧
      (fireImmediately w).1.timer = w.timer) := by
  have hi := inv_reachable w hw
  cases hta : a.throws with
  | false =>
      have hres : fireImmediately w =
          (clear { w with
            executed := w.executed ++ [(a.id, w.now)]
            timer := { w.timer with action := none } }, false) := by
        unfold fireImmediately
        rw [ha]
        simp [hta]
      have hcc := clear_canonical
        { w with
          executed := w.executed ++ [(a.id, w.now)]
          timer := { w.timer with action := none } }
        (fun h hv => hi.handle_pos h hv)
        (fun p hp => hi.regs_handle p hp)
        hi.sync_start hi.sync_delay
      rw [hres, hcc]
      exact ⟨rfl, fun _ => ⟨rfl, rfl⟩, fun hcontra => absurd hcontra Bool.false_ne_true⟩
  | true =>
      have hres : fireImmediately w =
          ({ w with executed := w.executed ++ [(a.id, w.now)] }, true) := by
        unfold fireImmediately
        rw [ha]
        simp [hta]
      rw [hres]
      exact ⟨rfl, fun hcontra => absurd hcontra (by simp), fun _ => ⟨rfl, rfl⟩⟩

theorem C2_fire_amended_witness :
    (fireImmediately (run [Op.schedule ⟨3, false⟩ 7] init)).1.executed
        = (run [Op.schedule ⟨3, false⟩ 7] init).executed
          ++ [((Action.mk 3 false).id, (run [Op.schedule ⟨3, false⟩ 7] init).now)] ∧
    ((Action.mk 3 false).throws = false →
      (fireImmediately (run [Op.schedule ⟨3, false⟩ 7] init)).2 = false ∧
      (fireImmediately (run [Op.schedule ⟨3, false⟩ 7] init)).1.timer
        = ⟨none, none, none, none⟩) ∧
    ((Action.mk 3 false).throws = true →
      (fireImmediately (run [Op.schedule ⟨3, false⟩ 7] init)).2 = true ∧
      (fireImmediately (run [Op.schedule ⟨3, false⟩ 7] init)).1.timer
        = (run [Op.schedule ⟨3, false⟩ 7] init).timer) :=
  C2_fire_amended (run [Op.schedule ⟨3, false⟩ 7] init) ⟨3, false⟩
    ⟨[Op.schedule ⟨3, false⟩ 7], rfl⟩ rfl

/-- C4 fails on the code: `fire` is a later operation that does not
re-schedule, yet after a cancel it executes the previously scheduled
action, because `clear` retains the `action` field. -/
theorem C4_counterexample :
    executedIds (run [Op.schedule ⟨2, false⟩ 5, Op.cancel, Op.fire] init) = [2] := by
  decide

/-- C4 amended: after `clear` on a reachable instance, `isScheduled`
returns false and the host registration is deregistered, so the cancelled
action never executes on its own -- no sequence of further cancels, clock
advances and host delivery attempts (in particular the original delay
elapsing) ever runs it.  However, a later explicit `fire` call without an
intervening `schedule` does execute the retained action, since `clear`
does not null the `action` field. -/
theorem C4_cancel_amended (w : World) (hw : Reachable w) :
    isScheduled (clear w) = false ∧
    (clear w).registrations = [] ∧
    (∀ ops, (∀ op ∈ ops,
        op = Op.cancel ∨ (∃ d, op = Op.advance d) ∨ (∃ h, op = Op.deliver h)) →
      (run ops (clear w)).executed = w.executed) := by
  have hi := inv_reachable w hw
  have hc := clear_canonical w hi.handle_pos hi.regs_handle hi.sync_start hi.sync_delay
  refine ⟨?_, ?_, ?_⟩
  · rw [hc]
    rfl
  · rw [hc]
  · intro ops hops
    have hfr := passive_frozen ops (clear w) (by rw [hc]) hops
    rw [hfr.1, clear_executed]

theorem C4_cancel_amended_witness :
    isScheduled (clear (run [Op.schedule ⟨2, false⟩ 9] init)) = false ∧
    (clear (run [Op.schedule ⟨2, false⟩ 9] init)).registrations = [] ∧
    (∀ ops, (∀ op ∈ ops,
        op = Op.cancel ∨ (∃ d, op = Op.advance d) ∨ (∃ h, op = Op.deliver h)) →
      (run ops (clear (run [Op.schedule ⟨2, false⟩ 9] init))).executed
        = (run [Op.schedule ⟨2, false⟩ 9] init).executed) :=
  C4_cancel_amended (run [Op.schedule ⟨2, false⟩ 9] init)
    ⟨[Op.schedule ⟨2, false⟩ 9], rfl⟩

/-- C7 fails on the code when the pending action throws: `fire` then never
reaches `clearTimeout`, the instance stays armed, and the still-live host
registration fires the same action a second time once the original delay
elapses. -/
theorem C7_counterexample :
    executedIds (run [Op.schedule ⟨6, true⟩ 5, Op.fire, Op.advance 5, Op.deliver 1] init)
      = [6, 6] ∧
    isScheduled (run [Op.schedule ⟨6, true⟩ 5, Op.fire] init) = true := by
  decide

/-- C7 amended: on every reachable armed instance whose pending action
returns normally, calling `fire` directly executes the action immediately
(exactly once), transitions to idle, and deregisters the host timer, so no
later non-schedule operation -- in particular the original delay elapsing
-- ever runs an action again. -/
theorem C7_flush_amended (w : World) (a : Action) (hw : Reachable w)
    (harm : isScheduled w = true) (ha : w.timer.action = some a)
    (ht : a.throws = false) :
    (fireImmediately w).1.executed = w.executed ++ [(a.id, w.now)] ∧
    isScheduled (fireImmediately w).1 = false ∧
    (fireImmediately w).1.registrations = [] ∧
    (∀ ops, (∀ op ∈ ops, ∀ b d, op ≠ Op.schedule b d) →
      (run ops (fireImmediately w).1).executed = w.executed ++ [(a.id, w.now)]) := by
  have hi := inv_reachable w hw
  have hres : fireImmediately w =
      (clear { w with
        executed := w.executed ++ [(a.id, w.now)]
        timer := { w.timer with action := none } }, false) := by
    unfold fireImmediately
    rw [ha]
    simp [ht]
  have hcc := clear_canonical
    { w with
      executed := w.executed ++ [(a.id, w.now)]
      timer := { w.timer with action := none } }
    (fun h hv2 => hi.handle_pos h hv2)
    (fun p hp => hi.regs_handle p hp)
    hi.sync_start hi.sync_delay
  rw [hres, hcc]
  refine ⟨rfl, rfl, rfl, ?_⟩
  intro ops hops
  exact (inert_frozen ops _ rfl rfl hops).1

theorem C7_flush_amended_witness :
    (fireImmediately (run [Op.schedule ⟨5, false⟩ 8] init)).1.executed
        = (run [Op.schedule ⟨5, false⟩ 8] init).executed
          ++ [((Action.mk 5 false).id, (run [Op.schedule ⟨5, false⟩ 8] init).now)] ∧
    isScheduled (fireImmediately (run [Op.schedule ⟨5, false⟩ 8] init)).1 = false ∧
    (fireImmediately (run [Op.schedule ⟨5, false⟩ 8] init)).1.registrations = [] ∧
    (∀ ops, (∀ op ∈ ops, ∀ b d, op ≠ Op.schedule b d) →
      (run ops (fireImmediately (run [Op.schedule ⟨5, false⟩ 8] init)).1).executed
        = (run [Op.schedule ⟨5, false⟩ 8] init).executed
          ++ [((Action.mk 5 false).id, (run [Op.schedule ⟨5, false⟩ 8] init).now)]) :=
  C7_flush_amended (run [Op.schedule ⟨5, false⟩ 8] init) ⟨5, false⟩
    ⟨[Op.schedule ⟨5, false⟩ 8], rfl⟩ rfl rfl rfl

/-- C9: on a reachable armed instance, `getRemaining` is non-increasing
under any non-negative clock advance with no intervening operation, and it
is already 0 at any moment at which the host could deliver the pending
callback (every live registration whose due time has arrived). -/
theorem C9_remaining_monotone (w : World) (hw : Reachable w) (r1 : Int) (d : Nat)
    (h1 : getRemaining w = some r1) :
    (∃ r2, getRemaining (applyOp (Op.advance d) w) = some r2 ∧ r2 ≤ r1) ∧
    (∀ p ∈ w.registrations, p.2 ≤ w.now → r1 = 0) := by
  have hi := inv_reachable w hw
  unfold getRemaining at h1
  cases hv : w.timer.value with
  | none =>
      rw [hv] at h1
      cases h1
  | some v =>
      rw [hv] at h1
      cases hs : w.timer.startTime with
      | none =>
          rw [hs] at h1
          cases h1
      | some s =>
          rw [hs] at h1
          cases hd : w.timer.delayMs with
          | none =>
              rw [hd] at h1
              cases h1
          | some dl =>
              rw [hd] at h1
              have h1x : (if (v != 0) = true
                    then some (max 0 ((dl : Int) - ((w.now : Int) - (s : Int))))
                    else none) = some r1 := h1
              by_cases hvz : (v != 0) = true
              · rw [if_pos hvz] at h1x
                have hr1 : r1 = max 0 ((dl : Int) - ((w.now : Int) - (s : Int))) :=
                  (Option.some.injEq _ _ ▸ h1x).symm
                constructor
                · refine ⟨max 0 ((dl : Int) - (((w.now + d : Nat) : Int) - (s : Int))), ?_, ?_⟩
                  · show getRemaining { w with now := w.now + d }
                        = some (max 0 ((dl : Int) - (((w.now + d : Nat) : Int) - (s : Int))))
                    unfold getRemaining
                    rw [show ({ w with now := w.now + d } : World).timer.value
                          = w.timer.value from rfl, hv,
                        show ({ w with now := w.now + d } : World).timer.startTime
                          = w.timer.startTime from rfl, hs,
                        show ({ w with now := w.now + d } : World).timer.delayMs
                          = w.timer.delayMs from rfl, hd]
                    simp [hvz]
                  · rw [hr1]
                    apply max_le_max le_rfl
                    push_cast
                    omega
                · intro p hp hdue
                  obtain ⟨s2, d2, hs2, hd2, hp2⟩ := hi.regs_due p hp
                  rw [hs] at hs2
                  rw [hd] at hd2
                  cases hs2
                  cases hd2
                  rw [hr1]
                  apply max_eq_left
                  rw [hp2] at hdue
                  omega
              · rw [if_neg hvz] at h1x
                cases h1x

/-- C1: on a fresh instance, `schedule a1 d1` followed, `t < d1` later, by
`schedule a2 d2` (distinct callbacks) leaves a trace in which `a1` never
executes -- also under ANY continuation that does not schedule a callback
with `a1`'s id -- and `a2` executes exactly once, at host delivery time
`t + s ≥ t + d2`, i.e. after `d2` has elapsed since its scheduling. -/
theorem C1_debounce (a1 a2 : Action) (d1 d2 t s : Nat)
    (hlt : t < d1) (hid : a1.id ≠ a2.id) (hds : d2 ≤ s) :
    (run [Op.schedule a1 d1, Op.advance t, Op.schedule a2 d2,
          Op.advance s, Op.deliver 2] init).executed = [(a2.id, t + s)] ∧
    t + d2 ≤ t + s ∧
    (∀ ops, (∀ op ∈ ops, ∀ b d, op = Op.schedule b d → b.id ≠ a1.id) →
      a1.id ∉ executedIds
        (run ops (run [Op.schedule a1 d1, Op.advance t, Op.schedule a2 d2,
          Op.advance s, Op.deliver 2] init))) := by
  have h5 : run [Op.schedule a1 d1, Op.advance t, Op.schedule a2 d2,
        Op.advance s, Op.deliver 2] init
      = if 0 + t + d2 ≤ 0 + t + s
          then (fireImmediately
            ⟨0 + t + s, 3, [], ⟨some 2, some a2, some (0 + t), some d2⟩, []⟩).1
          else ⟨0 + t + s, 3, [(2, 0 + t + d2)],
            ⟨some 2, some a2, some (0 + t), some d2⟩, []⟩ := rfl
  simp only [Nat.zero_add] at h5
  rw [h5, if_pos (by omega : t + d2 ≤ t + s)]
  cases hb : a2.throws with
  | true =>
      have hres : (fireImmediately
            ⟨t + s, 3, [], ⟨some 2, some a2, some t, some d2⟩, []⟩).1
          = ⟨t + s, 3, [], ⟨some 2, some a2, some t, some d2⟩, [(a2.id, t + s)]⟩ := by
        unfold fireImmediately
        simp [hb]
      rw [hres]
      refine ⟨rfl, by omega, ?_⟩
      intro ops hops
      refine run_not_exec a1.id ops _ ?_ ?_ hops
      · show a1.id ∉ [a2.id]
        simp [hid]
      · intro b hbac
        have hb2 : some a2 = some b := hbac
        cases hb2
        exact Ne.symm hid
  | false =>
      have hres : (fireImmediately
            ⟨t + s, 3, [], ⟨some 2, some a2, some t, some d2⟩, []⟩).1
          = ⟨t + s, 3, [], ⟨none, none, none, none⟩, [(a2.id, t + s)]⟩ := by
        unfold fireImmediately
        simp [hb, clear, truthy]
      rw [hres]
      refine ⟨rfl, by omega, ?_⟩
      intro ops hops
      refine run_not_exec a1.id ops _ ?_ ?_ hops
      · show a1.id ∉ [a2.id]
        simp [hid]
      · intro b hbac
        have hb2 : (none : Option Action) = some b := hbac
        cases hb2

theorem C1_debounce_witness :
    (run [Op.schedule ⟨1, false⟩ 5, Op.advance 2, Op.schedule ⟨2, false⟩ 3,
          Op.advance 4, Op.deliver 2] init).executed = [((Action.mk 2 false).id, 2 + 4)] ∧
    2 + 3 ≤ 2 + 4 ∧
    (∀ ops, (∀ op ∈ ops, ∀ b d, op = Op.schedule b d → b.id ≠ (Action.mk 1 false).id) →
      (Action.mk 1 false).id ∉ executedIds
        (run ops (run [Op.schedule ⟨1, false⟩ 5, Op.advance 2, Op.schedule ⟨2, false⟩ 3,
          Op.advance 4, Op.deliver 2] init))) :=
  C1_debounce ⟨1, false⟩ ⟨2, false⟩ 5 3 2 4 (by decide) (by decide) (by decide)

theorem C9_remaining_monotone_witness :
    (∃ r2, getRemaining (applyOp (Op.advance 3)
        (run [Op.schedule ⟨0, false⟩ 10, Op.advance 4] init)) = some r2 ∧ r2 ≤ 6) ∧
    (∀ p ∈ (run [Op.schedule ⟨0, false⟩ 10, Op.advance 4] init).registrations,
      p.2 ≤ (run [Op.schedule ⟨0, false⟩ 10, Op.advance 4] init).now → (6 : Int) = 0) :=
  C9_remaining_monotone (run [Op.schedule ⟨0, false⟩ 10, Op.advance 4] init)
    ⟨[Op.schedule ⟨0, false⟩ 10, Op.advance 4], rfl⟩ 6 3 (by decide)

end ChangeTimerModel
